import Mathlib

/-!
Verification of the electrical-component classifier's core prediction module
(`backend/dep.py`) and its web-layer lazy initialization (`backend/app.py`).

The Python code is shallowly embedded:
* Python `dict`s are insertion-ordered association lists (CPython dicts
  preserve insertion order, and `json.load` preserves the key order of the
  stored document).
* The probability row `probabilities[0]` (the output of
  `torch.nn.functional.softmax(model(x), dim=1)` at `dep.py:163`) is passed
  to the ranking code as a list of rationals; the softmax itself is embedded
  separately over the reals, where `Real.exp` lives.
* `torch.max(p, 1)` (at `dep.py:164`) returns the maximum together with the
  first (lowest) index attaining it; it is embedded as a left-to-right scan
  that replaces the current best only on a strictly greater value.
* CPython's `sorted(..., key=lambda x: x[1], reverse=True)` (at `dep.py:176`)
  is a stable descending sort; it is embedded as a stable insertion sort.
* Exceptions caught by `predict`'s `try/except` are embedded as `Except`
  values carrying the message `str(e)` of the exception the interpreter
  raises at that point.
-/

/-- Decimal digit value of a character, `none` on a non-digit. -/
def charDigit (c : Char) : Option ℕ :=
  if 48 ≤ c.toNat ∧ c.toNat ≤ 57 then some (c.toNat - 48) else none

/-- Accumulate decimal digits left to right; any non-digit aborts. -/
def parseDigitsGo (acc : ℕ) : List Char → Option ℕ
  | [] => some acc
  | c :: cs =>
    match charDigit c with
    | none => none
    | some d => parseDigitsGo (acc * 10 + d) cs

/-- Parse a non-empty all-digit character sequence. -/
def parseDigits (cs : List Char) : Option ℕ :=
  if cs.isEmpty then none else parseDigitsGo 0 cs

/-- Python `int(s)` on a class-map key string, as used at `dep.py:173`
(`int(idx)`): an optional leading minus sign followed by decimal digits
(the forms JSON-object keys for class indices take). Any other string
raises `ValueError`. -/
def pyInt (s : String) : Option Int :=
  match s.data with
  | '-' :: rest => (parseDigits rest).map (fun n => -(n : Int))
  | ds => (parseDigits ds).map (fun n => (n : Int))

/-- Python/torch sequence indexing `l[i]` with negative-index wraparound;
`none` models the `IndexError` raised on an out-of-range index. -/
def pyIndex (l : List ℚ) (i : Int) : Option ℚ :=
  let j : Int := if i < 0 then i + l.length else i
  if h : 0 ≤ j ∧ j.toNat < l.length then some (l.get ⟨j.toNat, h.2⟩) else none

/-- Python dict assignment `d[k] = v`: update the value in place when the key
is present (keeping its position), otherwise append the new binding. -/
def dictInsert (d : List (String × ℚ)) (k : String) (v : ℚ) : List (String × ℚ) :=
  if d.any (fun p => p.1 == k) then
    d.map (fun p => if p.1 == k then (k, v) else p)
  else
    d ++ [(k, v)]

/-- Scan underlying `torch.max(probabilities, 1)` (`dep.py:164`): carries the
best value, its index, and the index of the next element; a later element
replaces the best only when strictly greater, so the first maximum wins. -/
def argmaxGo (best : ℚ) (bi : ℕ) (k : ℕ) : List ℚ → ℚ × ℕ
  | [] => (best, bi)
  | y :: ys => if best < y then argmaxGo y k (k + 1) ys else argmaxGo best bi (k + 1) ys

/-- `torch.max(probabilities, 1)` on the row: maximum value and the lowest
index attaining it; `none` models the `RuntimeError` raised on an empty
reduction dimension. -/
def argmaxFirst : List ℚ → Option (ℚ × ℕ)
  | [] => none
  | x :: xs => some (argmaxGo x 0 1 xs)

/-- Stable insertion step for CPython's `sorted(..., key=lambda x: x[1],
reverse=True)`: an existing element keeps its place in front of the inserted
one whenever its probability is at least as large, so equal probabilities
preserve their original relative order. -/
def insertDesc (p : String × ℚ) : List (String × ℚ) → List (String × ℚ)
  | [] => [p]
  | q :: rest => if p.2 ≤ q.2 then q :: insertDesc p rest else p :: q :: rest

/-- `sorted(prob_dist.items(), key=lambda x: x[1], reverse=True)`
(`dep.py:176`): stable descending sort by probability. -/
def pySortedDesc (l : List (String × ℚ)) : List (String × ℚ) :=
  l.foldl (fun acc p => insertDesc p acc) []

/-- The loop at `dep.py:172-173` building `prob_dist`: for each
`(idx, class_name)` in the class map (in its stored order), set
`prob_dist[class_name] = probabilities[0][int(idx)]`. A `ValueError` from
`int(idx)` or an `IndexError` from the tensor indexing aborts the loop with
the exception message that `predict`'s `except` block stringifies. -/
def buildProbDist (probs : List ℚ) :
    List (String × String) → List (String × ℚ) → Except String (List (String × ℚ))
  | [], dist => .ok dist
  | (k, lbl) :: rest, dist =>
    match pyInt k with
    | none => .error ("invalid literal for int() with base 10: \x27" ++ k ++ "\x27")
    | some i =>
      match pyIndex probs i with
      | none => .error ("index " ++ toString i ++ " is out of bounds for dimension 1 with size "
          ++ toString probs.length)
      | some q => buildProbDist probs rest (dictInsert dist lbl q)

/-- The dictionary returned by `ElectricalComponentPredictor.predict`
(`dep.py:178-184` on success, `dep.py:152-158` and `dep.py:191-197` on
failure). Optional fields model keys that are absent from the failure
dictionaries (`all_probabilities`) or from the success dictionary (`error`). -/
structure PredictionResult where
  success : Bool
  class_name : Option String
  confidence : ℚ
  probabilities : List (String × ℚ)
  all_probabilities : Option (List (String × ℚ))
  error : Option String
  deriving DecidableEq, Repr

/-- The failure dictionary built at `dep.py:152-158` and `dep.py:191-197`:
`success=False`, the error message, `class_name=None`, `confidence=0.0`,
`probabilities={}`, and no `all_probabilities` key. -/
def mkFailure (e : String) : PredictionResult :=
  { success := false
    class_name := none
    confidence := 0
    probabilities := []
    all_probabilities := none
    error := some e }

/-- Lines `dep.py:161-187`: `torch.max` over the softmax row, class-name
lookup `class_map[str(predicted_idx.item())]`, the `prob_dist` loop, the
stable descending sort, and assembly of the result dictionary.  Every
exception is caught by the surrounding `try/except` and converted into the
failure dictionary carrying `str(e)`. -/
def rankResult (cm : List (String × String)) (probs : List ℚ) : PredictionResult :=
  match argmaxFirst probs with
  | none => mkFailure "max(): Expected reduction dim 1 to have non-zero size."
  | some (conf, idx) =>
    match List.lookup (toString idx) cm with
    | none => mkFailure ("\x27" ++ toString idx ++ "\x27")
    | some cls =>
      match buildProbDist probs cm [] with
      | .error e => mkFailure e
      | .ok dist =>
        { success := true
          class_name := some cls
          confidence := conf
          probabilities := (pySortedDesc dist).take 5
          all_probabilities := some dist
          error := none }

/-- `ElectricalComponentPredictor.predict` (`dep.py:138-197`).  `pre = none`
models `preprocess_image` returning `None` (nonexistent path, zero-byte file,
undecodable payload — `dep.py:119-136` catches them all); `pre = some probs`
bundles a successful preprocessing and forward pass, `probs` being the
softmax row `probabilities[0]`. -/
def predict (cm : List (String × String)) (pre : Option (List ℚ)) : PredictionResult :=
  match pre with
  | none => mkFailure "Failed to preprocess image"
  | some probs => rankResult cm probs

/-- `torch.nn.functional.softmax(outputs, dim=1)` (`dep.py:163`) on one row
of logits, embedded over the reals: `softmax(x)_i = exp(x_i) / Σ_j exp(x_j)`.
(The numerically stable max-subtraction the library performs is the identity
in exact real arithmetic. Exact real exponentiation has no executable code,
so this one definition is noncomputable.) -/
noncomputable def softmax (l : List ℝ) : List ℝ :=
  l.map (fun x => Real.exp x / (l.map Real.exp).sum)

/-- Dot product of two weight/activation rows. -/
def dotQ (r x : List ℚ) : ℚ :=
  (List.zipWith (fun a b => a * b) r x).sum

/-- `nn.Linear`: one output per weight row, `w · x + b`. -/
def linearLayer (w : List (List ℚ)) (b : List ℚ) (x : List ℚ) : List ℚ :=
  List.zipWith (fun row bi => dotQ row x + bi) w b

/-- `nn.ReLU` applied elementwise. -/
def reluLayer (x : List ℚ) : List ℚ :=
  x.map (fun a => max a 0)

/-- `nn.Dropout(0.5)` (`dep.py:69`): in training mode each activation is
zeroed where the random mask fires and the survivors are scaled by
`1/(1-0.5) = 2`; in inference mode (after `model.eval()`) the layer is the
identity and the mask is never consulted. -/
def dropoutLayer (training : Bool) (mask : ℕ → Bool) (x : List ℚ) : List ℚ :=
  if training then
    (x.enum.map (fun iv => if mask iv.1 then 0 else iv.2 * 2))
  else
    x

/-- Weights of the custom classifier head built at `dep.py:66-71`:
`Linear(num_ftrs, 512) → ReLU → Dropout(0.5) → Linear(512, num_classes)`. -/
structure HeadWeights where
  w1 : List (List ℚ)
  b1 : List ℚ
  w2 : List (List ℚ)
  b2 : List ℚ

/-- The loaded network (`dep.py:62-78`): the convolutional backbone
(an opaque deterministic feature extractor), the head weights, and the
training flag that `model.eval()` (`dep.py:76`) sets to `false`. -/
structure ModelState where
  backbone : List ℚ → List ℚ
  head : HeadWeights
  training : Bool

/-- `_load_model`'s architecture construction followed by `model.eval()`
(`dep.py:76`): the returned model is in inference mode. -/
def loadModelEval (backbone : List ℚ → List ℚ) (head : HeadWeights) : ModelState :=
  { backbone := backbone, head := head, training := false }

/-- Forward pass of the head on extracted features, threading the training
flag and the dropout randomness. -/
def headForward (hw : HeadWeights) (training : Bool) (mask : ℕ → Bool)
    (feat : List ℚ) : List ℚ :=
  linearLayer hw.w2 hw.b2 (dropoutLayer training mask (reluLayer (linearLayer hw.w1 hw.b1 feat)))

/-- `self.model(image_tensor)` (`dep.py:162`): backbone then head. `mask` is
the stochastic dropout mask the layer would draw in training mode. -/
def modelForward (m : ModelState) (mask : ℕ → Bool) (x : List ℚ) : List ℚ :=
  headForward m.head m.training mask (m.backbone x)

/-- Shared state of the web layer's lazy singleton (`app.py:36-48`): the
module-global `predictor` reference and an instrumentation counter of how
many times `create_predictor` has run. -/
structure GPState where
  predictor : Option Unit
  loadCount : ℕ
  pcs : List ℕ
  deriving DecidableEq, Repr

/-- One scheduler step of thread `t` running `get_predictor` (`app.py:38-48`).
Each thread's program counter: `0` = about to evaluate `predictor is None`;
`1` = observed `None`, about to run `create_predictor` and assign; `2` =
returned. The check and the assignment are separate steps: the code takes no
lock, and `create_predictor` suspends the thread (I/O, native code), so other
threads can interleave between them. -/
def gpStep (s : GPState) (t : ℕ) : GPState :=
  match s.pcs.get? t with
  | some 0 =>
    if s.predictor.isSome then
      { s with pcs := s.pcs.set t 2 }
    else
      { s with pcs := s.pcs.set t 1 }
  | some 1 =>
    { predictor := some (), loadCount := s.loadCount + 1, pcs := s.pcs.set t 2 }
  | _ => s

/-- Run a schedule (a list of thread ids, each entry letting that thread take
its next step) from a state. -/
def gpRun (s : GPState) (sched : List ℕ) : GPState :=
  sched.foldl gpStep s

/-- Initial state before any request: `predictor = None` (`app.py:36`), no
loads, `n` threads all about to call `get_predictor`. -/
def gpInit (n : ℕ) : GPState :=
  { predictor := none, loadCount := 0, pcs := List.replicate n 0 }

/-- The dictionary returned by `get_class_info` (`dep.py:199-210`). -/
structure ClassInfo where
  num_classes : ℕ
  classes : List String
  class_mapping : List (String × String)
  deriving DecidableEq, Repr

/-- `ElectricalComponentPredictor.get_class_info` (`dep.py:206-210`):
`num_classes = len(class_map)`, `classes = list(class_map.values())`
(iteration order of the loaded dict, i.e. the storage order of the file),
`class_mapping = class_map`. -/
def get_class_info (cm : List (String × String)) : ClassInfo :=
  { num_classes := cm.length
    classes := cm.map (fun kv => kv.2)
    class_mapping := cm }

/-- State of the class-map artifact on disk: absent, present but not valid
JSON, or parsed to an ordered key-value listing (Python `json.load` keeps the
document's key order and yields unique keys). -/
inductive FileState where
  | missing
  | unparseable
  | parsed (entries : List (String × String))
  deriving DecidableEq

/-- The predictor state after `__init__` succeeds: the loaded class map
(`self.class_map`). -/
structure Predictor where
  class_map : List (String × String)
  deriving DecidableEq

/-- `_load_model` (`dep.py:50-83`): fails when the weights file is missing;
re-reads and parses the class map (`dep.py:57-59`, propagating `open`/
`json.load` errors); sets `num_classes = len(class_map)`; fails when the
serialized weights are shape-incompatible with the constructed head
(`load_state_dict`, abstracted as the compatibility predicate
`weightsCompat`). No validation of the class-map keys happens here. -/
def load_model_step (modelExists : Bool) (cmFile : FileState)
    (weightsCompat : ℕ → Bool) : Except String ℕ :=
  if modelExists = false then .error "Model file not found" else
  match cmFile with
  | .missing => .error "No such file or directory"
  | .unparseable => .error "Expecting value"
  | .parsed entries =>
    if weightsCompat entries.length then .ok entries.length
    else .error "Error(s) in loading state_dict"

/-- `_load_class_map` (`dep.py:85-98`): fails when the file is missing or
unparseable, otherwise stores `json.load`'s result as is — the keys are not
inspected in any way. -/
def load_class_map_step (cmFile : FileState) : Except String (List (String × String)) :=
  match cmFile with
  | .missing => .error "Class map file not found"
  | .unparseable => .error "Expecting value"
  | .parsed entries => .ok entries

/-- `ElectricalComponentPredictor.__init__` (`dep.py:27-48`): `_load_model`
then `_load_class_map` (the transform setup at `dep.py:100-107` cannot
fail); any raised error propagates and the predictor is never constructed. -/
def initializePredictor (modelExists : Bool) (cmFile : FileState)
    (weightsCompat : ℕ → Bool) : Except String Predictor := do
  let _n ← load_model_step modelExists cmFile weightsCompat
  let cm ← load_class_map_step cmFile
  pure { class_map := cm }

/-- Spec-side (claim C4): the artifact's keys are exactly the decimal
strings of `{0, ..., N-1}` for `N = ` number of entries, `N ≥ 1`. -/
def contiguousKeys (entries : List (String × String)) : Prop :=
  1 ≤ entries.length ∧
    List.Perm (entries.map (fun kv => kv.1))
      ((List.range entries.length).map (fun i => toString i))

instance (entries : List (String × String)) : Decidable (contiguousKeys entries) := by
  unfold contiguousKeys
  exact instDecidableAnd

/-- Spec-side (claim C1): `c` is the maximum value of `probs` and `i` is the
lowest index attaining it. -/
def firstArgmax (probs : List ℚ) (c : ℚ) (i : ℕ) : Prop :=
  probs.get? i = some c ∧ (∀ p ∈ probs, p ≤ c) ∧
    ∀ j, j < i → ∀ q, probs.get? j = some q → q < c

/-- Spec-side stable insertion by a Boolean stays-before test: an existing
element `q` keeps its place in front of the inserted `p` iff `le q p`. -/
def insertBy {α : Type} (le : α → α → Bool) (p : α) : List α → List α
  | [] => [p]
  | q :: rest => if le q p then q :: insertBy le p rest else p :: q :: rest

/-- Spec-side stable insertion sort by a Boolean stays-before test. -/
def sortBy {α : Type} (le : α → α → Bool) (l : List α) : List α :=
  l.foldl (fun acc p => insertBy le p acc) []

/-- Spec-side (claim C2): order entries by probability descending, breaking
ties by ascending original class index. -/
def claimC2Le (x y : Int × String × ℚ) : Bool :=
  decide (y.2.2 < x.2.2) || (decide (x.2.2 = y.2.2) && decide (x.1 ≤ y.1))

/-- Spec-side (claim C2): the top-K view the claim describes — the entries of
`all_probabilities` sorted by probability descending with ties broken by
ascending original class index, truncated to five entries. -/
def claimTopK (cm : List (String × String)) (probs : List ℚ) : List (String × ℚ) :=
  ((sortBy claimC2Le
      (cm.filterMap (fun kv =>
        (pyInt kv.1).bind (fun i => (pyIndex probs i).map (fun q => (i, kv.2, q)))))).map
    (fun x => (x.2.1, x.2.2))).take 5

/-- The entries `(class_name, probabilities[0][int(idx)])` that the
`prob_dist` loop (`dep.py:172-173`) produces, in class-map storage order;
entries whose key fails to parse or whose index is out of range are dropped
(on the success path none are, and with pairwise-distinct labels
`prob_dist` equals exactly this list). -/
def probEntries (probs : List ℚ) (cml : List (String × String)) : List (String × ℚ) :=
  cml.filterMap (fun kv =>
    (pyInt kv.1).bind (fun i => (pyIndex probs i).map (fun q => (kv.2, q))))

/-- The parsed integer indices of a class map's keys, in storage order;
unparseable keys are dropped. -/
def classIndices (cml : List (String × String)) : List Int :=
  cml.filterMap (fun kv => pyInt kv.1)

/-- Class-map entries tagged with their parsed integer index, in storage
order; entries with non-integer keys are dropped. -/
def keyedEntries (cm : List (String × String)) : List (Int × String) :=
  cm.filterMap (fun kv => (pyInt kv.1).map (fun i => (i, kv.2)))

/-- Spec-side ascending-index comparison on keyed entries. -/
def ascKeyLe (x y : Int × String) : Bool :=
  decide (x.1 ≤ y.1)

/-- Spec-side (claim C7): all labels listed by ascending class index. -/
def labelsByAscIndex (cm : List (String × String)) : List String :=
  (sortBy ascKeyLe (keyedEntries cm)).map (fun x => x.2)

/-- Spec-side (claim C6): the shape the claim requires of every result —
confidence in `[0,1]` and an `all_probabilities` mapping with an entry for
every class of the class map. -/
def claimC6Shape (cm : List (String × String)) (r : PredictionResult) : Prop :=
  (0 ≤ r.confidence ∧ r.confidence ≤ 1) ∧
    ∃ d, r.all_probabilities = some d ∧ ∀ kv ∈ cm, ∃ q, (kv.2, q) ∈ d


/-! ### Lemmas about the stable descending sort -/

theorem insertDesc_perm (p : String × ℚ) (l : List (String × ℚ)) :
    List.Perm (insertDesc p l) (p :: l) := by
  induction l with
  | nil => simp [insertDesc]
  | cons q rest ih =>
    by_cases h : p.2 ≤ q.2
    · simp only [insertDesc, if_pos h]
      exact (ih.cons q).trans (List.Perm.swap p q rest)
    · simp [insertDesc, h]

theorem insertDesc_sorted (p : String × ℚ) (l : List (String × ℚ))
    (hs : l.Pairwise (fun a b => b.2 ≤ a.2)) :
    (insertDesc p l).Pairwise (fun a b => b.2 ≤ a.2) := by
  induction l with
  | nil => simp [insertDesc]
  | cons q rest ih =>
    rcases List.pairwise_cons.1 hs with ⟨hq, hrest⟩
    by_cases h : p.2 ≤ q.2
    · simp only [insertDesc, if_pos h]
      refine List.pairwise_cons.2 ⟨?_, ih hrest⟩
      intro b hb
      rcases List.mem_cons.1 ((insertDesc_perm p rest).mem_iff.1 hb) with rfl | hb
      · exact h
      · exact hq b hb
    · simp only [insertDesc, if_neg h]
      refine List.pairwise_cons.2 ⟨?_, hs⟩
      intro b hb
      rcases List.mem_cons.1 hb with rfl | hb
      · exact le_of_lt (lt_of_not_le h)
      · exact le_trans (hq b hb) (le_of_lt (lt_of_not_le h))

theorem insertDesc_filter (p : String × ℚ) (l : List (String × ℚ)) (v : ℚ)
    (hs : l.Pairwise (fun a b => b.2 ≤ a.2)) :
    (insertDesc p l).filter (fun x => decide (x.2 = v)) =
      if p.2 = v then l.filter (fun x => decide (x.2 = v)) ++ [p]
      else l.filter (fun x => decide (x.2 = v)) := by
  induction l with
  | nil => by_cases hv : p.2 = v <;> simp [insertDesc, hv]
  | cons q rest ih =>
    rcases List.pairwise_cons.1 hs with ⟨hq, hrest⟩
    by_cases h : p.2 ≤ q.2
    · have hins : insertDesc p (q :: rest) = q :: insertDesc p rest := by
        simp only [insertDesc, if_pos h]
      rw [hins, List.filter_cons, ih hrest]
      by_cases hv : p.2 = v <;> by_cases hqv : q.2 = v <;> simp [hv, hqv, List.filter_cons]
    · have hins : insertDesc p (q :: rest) = p :: q :: rest := by
        simp only [insertDesc, if_neg h]
      have hlt : q.2 < p.2 := lt_of_not_le h
      by_cases hv : p.2 = v
      · have hempty : (q :: rest).filter (fun x => decide (x.2 = v)) = [] := by
          rw [List.filter_eq_nil_iff]
          intro a ha
          rcases List.mem_cons.1 ha with rfl | ha
          · simpa using ne_of_lt (hv ▸ hlt)
          · simpa using ne_of_lt (lt_of_le_of_lt (hq a ha) (hv ▸ hlt))
        rw [hins, List.filter_cons, hempty]
        simp [hv]
      · rw [hins, List.filter_cons]
        simp [hv]

theorem sortFold_perm (l acc : List (String × ℚ)) :
    List.Perm (l.foldl (fun acc p => insertDesc p acc) acc) (acc ++ l) := by
  induction l generalizing acc with
  | nil => simp
  | cons x xs ih =>
    simp only [List.foldl_cons]
    refine (ih (insertDesc x acc)).trans ?_
    refine (List.Perm.append_right xs (insertDesc_perm x acc)).trans ?_
    simpa using List.perm_middle.symm

theorem sortFold_sorted (l acc : List (String × ℚ))
    (hs : acc.Pairwise (fun a b => b.2 ≤ a.2)) :
    (l.foldl (fun acc p => insertDesc p acc) acc).Pairwise (fun a b => b.2 ≤ a.2) := by
  induction l generalizing acc with
  | nil => simpa
  | cons x xs ih =>
    simp only [List.foldl_cons]
    exact ih (insertDesc x acc) (insertDesc_sorted x acc hs)

theorem sortFold_filter (l acc : List (String × ℚ)) (v : ℚ)
    (hs : acc.Pairwise (fun a b => b.2 ≤ a.2)) :
    (l.foldl (fun acc p => insertDesc p acc) acc).filter (fun x => decide (x.2 = v)) =
      acc.filter (fun x => decide (x.2 = v)) ++ l.filter (fun x => decide (x.2 = v)) := by
  induction l generalizing acc with
  | nil => simp
  | cons x xs ih =>
    simp only [List.foldl_cons]
    rw [ih (insertDesc x acc) (insertDesc_sorted x acc hs),
      insertDesc_filter x acc v hs, List.filter_cons]
    by_cases hv : x.2 = v <;> simp [hv]

theorem pySortedDesc_perm (l : List (String × ℚ)) : List.Perm (pySortedDesc l) l := by
  simpa [pySortedDesc] using sortFold_perm l []

theorem pySortedDesc_sorted (l : List (String × ℚ)) :
    (pySortedDesc l).Pairwise (fun a b => b.2 ≤ a.2) := by
  simpa [pySortedDesc] using sortFold_sorted l [] (by simp)

theorem pySortedDesc_filter (l : List (String × ℚ)) (v : ℚ) :
    (pySortedDesc l).filter (fun x => decide (x.2 = v)) =
      l.filter (fun x => decide (x.2 = v)) := by
  simpa [pySortedDesc] using sortFold_filter l [] v (by simp)

/-! ### Lemmas about the argmax scan -/

theorem argmaxGo_spec (rest : List ℚ) :
    ∀ (best : ℚ) (bi : ℕ) (pre : List ℚ), bi < pre.length → pre.get? bi = some best →
      (∀ p ∈ pre, p ≤ best) → (∀ j, j < bi → ∀ q, pre.get? j = some q → q < best) →
      firstArgmax (pre ++ rest) (argmaxGo best bi pre.length rest).1
        (argmaxGo best bi pre.length rest).2 := by
  induction rest with
  | nil =>
    intro best bi pre hbi hget hub hstrict
    refine ⟨by simpa using hget, ?_, ?_⟩
    · intro p hp
      exact hub p (by simpa using hp)
    · intro j hj q hq
      exact hstrict j hj q (by simpa using hq)
  | cons y ys ih =>
    intro best bi pre hbi hget hub hstrict
    by_cases h : best < y
    · have hres : argmaxGo best bi pre.length (y :: ys) = argmaxGo y pre.length (pre.length + 1) ys := by
        simp only [argmaxGo, if_pos h]
      have hlen : (pre ++ [y]).length = pre.length + 1 := by simp
      have := ih y pre.length (pre ++ [y]) (by simp) (by simp)
        (by
          intro p hp
          rcases List.mem_append.1 hp with hp | hp
          · exact le_of_lt (lt_of_le_of_lt (hub p hp) h)
          · simp at hp
            simp [hp])
        (by
          intro j hj q hq
          have hjlt : j < pre.length := by simpa using hj
          have : pre.get? j = some q := by
            rw [← hq]
            exact (List.get?_append hjlt).symm
          exact lt_of_le_of_lt (hub q (List.get?_mem this)) h)
      rw [hres, ← hlen]
      simpa [List.append_assoc] using this
    · have hres : argmaxGo best bi pre.length (y :: ys) = argmaxGo best bi (pre.length + 1) ys := by
        simp only [argmaxGo, if_neg h]
      have hy : y ≤ best := le_of_not_lt h
      have hlen : (pre ++ [y]).length = pre.length + 1 := by simp
      have := ih best bi (pre ++ [y]) (by simp; omega) (by rw [List.get?_append hbi]; exact hget)
        (by
          intro p hp
          rcases List.mem_append.1 hp with hp | hp
          · exact hub p hp
          · simp at hp
            simp [hp, hy])
        (by
          intro j hj q hq
          have hjlt : j < pre.length := lt_trans hj hbi
          have : pre.get? j = some q := by
            rw [← hq]
            exact (List.get?_append hjlt).symm
          exact hstrict j hj q this)
      rw [hres, ← hlen]
      simpa [List.append_assoc] using this

theorem argmaxFirst_spec (l : List ℚ) (c : ℚ) (i : ℕ)
    (h : argmaxFirst l = some (c, i)) : firstArgmax l c i := by
  match l, h with
  | x :: xs, h =>
    have h' : argmaxGo x 0 1 xs = (c, i) := by
      simpa [argmaxFirst] using h
    have := argmaxGo_spec xs x 0 [x] (by simp) (by simp) (by simp)
      (by intro j hj; omega)
    simpa [h'] using this

/-! ### Lemmas about the prob_dist construction -/

theorem length_append_pos_left (s t : String) (h : 0 < s.length) : 0 < (s ++ t).length := by
  rw [String.length_append]
  omega

theorem dictInsert_self_mem (d : List (String × ℚ)) (k : String) (v : ℚ) :
    (k, v) ∈ dictInsert d k v := by
  unfold dictInsert
  by_cases hany : d.any (fun p => p.1 == k) = true
  · rw [if_pos hany]
    obtain ⟨p, hp, hpk⟩ := List.any_eq_true.1 hany
    exact List.mem_map.2 ⟨p, hp, by simp [hpk]⟩
  · rw [if_neg hany]
    simp

theorem dictInsert_mem_keep (d : List (String × ℚ)) (k : String) (v : ℚ)
    (k' : String) (q' : ℚ) (hm : (k', q') ∈ d) :
    ∃ q'', (k', q'') ∈ dictInsert d k v := by
  by_cases hk : k' = k
  · subst hk
    exact ⟨v, dictInsert_self_mem d k' v⟩
  · unfold dictInsert
    by_cases hany : d.any (fun p => p.1 == k) = true
    · rw [if_pos hany]
      exact ⟨q', List.mem_map.2 ⟨(k', q'), hm, by simp [hk]⟩⟩
    · rw [if_neg hany]
      exact ⟨q', List.mem_append.2 (Or.inl hm)⟩

theorem buildProbDist_ok_covers (probs : List ℚ) (cml : List (String × String)) :
    ∀ (acc dist : List (String × ℚ)), buildProbDist probs cml acc = .ok dist →
      (∀ k' q', (k', q') ∈ acc → ∃ q, (k', q) ∈ dist) ∧
        (∀ kv ∈ cml, ∃ q, (kv.2, q) ∈ dist) := by
  induction cml with
  | nil =>
    intro acc dist h
    have hacc : acc = dist := by simpa [buildProbDist] using h
    subst hacc
    exact ⟨fun k' q' hm => ⟨q', hm⟩, by simp⟩
  | cons kv rest ih =>
    intro acc dist h
    obtain ⟨k, lbl⟩ := kv
    simp only [buildProbDist] at h
    cases hpi : pyInt k with
    | none =>
      simp only [hpi] at h
      exact absurd h (by simp)
    | some i =>
      simp only [hpi] at h
      cases hix : pyIndex probs i with
      | none =>
        simp only [hix] at h
        exact absurd h (by simp)
      | some q =>
        simp only [hix] at h
        obtain ⟨hkeep, hcov⟩ := ih (dictInsert acc lbl q) dist h
        refine ⟨?_, ?_⟩
        · intro k' q' hm
          obtain ⟨q'', hq''⟩ := dictInsert_mem_keep acc lbl q k' q' hm
          exact hkeep k' q'' hq''
        · intro kv hkv
          rcases List.mem_cons.1 hkv with rfl | hkv
          · exact hkeep lbl q (dictInsert_self_mem acc lbl q)
          · exact hcov kv hkv

theorem buildProbDist_error_length (probs : List ℚ) (cml : List (String × String)) :
    ∀ (acc : List (String × ℚ)) (e : String), buildProbDist probs cml acc = .error e →
      0 < e.length := by
  induction cml with
  | nil =>
    intro acc e h
    exact absurd h (by simp [buildProbDist])
  | cons kv rest ih =>
    intro acc e h
    obtain ⟨k, lbl⟩ := kv
    simp only [buildProbDist] at h
    cases hpi : pyInt k with
    | none =>
      simp only [hpi] at h
      have he : e = "invalid literal for int() with base 10: \x27" ++ k ++ "\x27" := by
        simpa using h.symm
      subst he
      exact length_append_pos_left _ _ (length_append_pos_left _ _ (by decide))
    | some i =>
      simp only [hpi] at h
      cases hix : pyIndex probs i with
      | none =>
        simp only [hix] at h
        have he : e = "index " ++ toString i ++ " is out of bounds for dimension 1 with size "
            ++ toString probs.length := by
          simpa using h.symm
        subst he
        exact length_append_pos_left _ _ (length_append_pos_left _ _
          (length_append_pos_left _ _ (by decide)))
      | some q =>
        simp only [hix] at h
        exact ih (dictInsert acc lbl q) e h

theorem buildProbDist_ok_length (probs : List ℚ) (cml : List (String × String)) :
    ∀ (acc dist : List (String × ℚ)), buildProbDist probs cml acc = .ok dist →
      ((acc.map Prod.fst) ++ (cml.map Prod.snd)).Nodup →
      dist.length = acc.length + cml.length := by
  induction cml with
  | nil =>
    intro acc dist h _
    have hacc : acc = dist := by simpa [buildProbDist] using h
    subst hacc
    simp
  | cons kv rest ih =>
    intro acc dist h hnd
    obtain ⟨k, lbl⟩ := kv
    simp only [buildProbDist] at h
    cases hpi : pyInt k with
    | none =>
      simp only [hpi] at h
      exact absurd h (by simp)
    | some i =>
      simp only [hpi] at h
      cases hix : pyIndex probs i with
      | none =>
        simp only [hix] at h
        exact absurd h (by simp)
      | some q =>
        simp only [hix] at h
        have hfresh : lbl ∉ acc.map Prod.fst := by
          intro hmem
          have hdisj := (List.nodup_append.1 hnd).2.2
          exact hdisj hmem (by simp)
        have hany : acc.any (fun p => p.1 == lbl) = false := by
          rw [List.any_eq_false]
          intro p hp
          simp only [beq_iff_eq]
          intro hpk
          exact hfresh (List.mem_map.2 ⟨p, hp, hpk⟩)
        have hins : dictInsert acc lbl q = acc ++ [(lbl, q)] := by
          simp [dictInsert, hany]
        have hnd' : (((dictInsert acc lbl q).map Prod.fst) ++ (rest.map Prod.snd)).Nodup := by
          rw [hins]
          have heq : ((acc ++ [(lbl, q)]).map Prod.fst) ++ (rest.map Prod.snd) =
              (acc.map Prod.fst) ++ (((k, lbl) :: rest : List (String × String)).map Prod.snd) := by
            simp
          rw [heq]
          exact hnd
        have hlen := ih (dictInsert acc lbl q) dist h hnd'
        rw [hins] at hlen
        simp at hlen ⊢
        omega

/-! ### The prob_dist entries on the success path -/

theorem dictInsert_fresh_append (acc : List (String × ℚ)) (lbl : String) (q : ℚ)
    (hfresh : lbl ∉ acc.map Prod.fst) : dictInsert acc lbl q = acc ++ [(lbl, q)] := by
  have hany : acc.any (fun p => p.1 == lbl) = false := by
    rw [List.any_eq_false]
    intro p hp
    simp only [beq_iff_eq]
    intro hpk
    exact hfresh (List.mem_map.2 ⟨p, hp, hpk⟩)
  simp [dictInsert, hany]

theorem buildProbDist_ok_entries (probs : List ℚ) (cml : List (String × String)) :
    ∀ (acc dist : List (String × ℚ)), buildProbDist probs cml acc = .ok dist →
      ((acc.map Prod.fst) ++ (cml.map Prod.snd)).Nodup →
      dist = acc ++ probEntries probs cml := by
  induction cml with
  | nil =>
    intro acc dist h _
    have hacc : acc = dist := by simpa [buildProbDist] using h
    subst hacc
    simp [probEntries]
  | cons kv rest ih =>
    intro acc dist h hnd
    obtain ⟨k, lbl⟩ := kv
    simp only [buildProbDist] at h
    cases hpi : pyInt k with
    | none =>
      simp only [hpi] at h
      exact absurd h (by simp)
    | some i =>
      simp only [hpi] at h
      cases hix : pyIndex probs i with
      | none =>
        simp only [hix] at h
        exact absurd h (by simp)
      | some q =>
        simp only [hix] at h
        have hfresh : lbl ∉ acc.map Prod.fst := by
          intro hmem
          have hdisj := (List.nodup_append.1 hnd).2.2
          exact hdisj hmem (by simp)
        have hins : dictInsert acc lbl q = acc ++ [(lbl, q)] :=
          dictInsert_fresh_append acc lbl q hfresh
        have hnd' : (((dictInsert acc lbl q).map Prod.fst) ++ (rest.map Prod.snd)).Nodup := by
          rw [hins]
          have heq : ((acc ++ [(lbl, q)]).map Prod.fst) ++ (rest.map Prod.snd) =
              (acc.map Prod.fst) ++ (((k, lbl) :: rest : List (String × String)).map Prod.snd) := by
            simp
          rw [heq]
          exact hnd
        have hstep := ih (dictInsert acc lbl q) dist h hnd'
        rw [hins] at hstep
        rw [hstep]
        simp [probEntries, List.filterMap_cons, hpi, hix]

theorem buildProbDist_ok_all_parse (probs : List ℚ) (cml : List (String × String)) :
    ∀ (acc dist : List (String × ℚ)), buildProbDist probs cml acc = .ok dist →
      ∀ kv ∈ cml, ∃ i q, pyInt kv.1 = some i ∧ pyIndex probs i = some q := by
  induction cml with
  | nil =>
    intro acc dist _ kv hkv
    simp at hkv
  | cons kv0 rest ih =>
    intro acc dist h kv hkv
    obtain ⟨k, lbl⟩ := kv0
    simp only [buildProbDist] at h
    cases hpi : pyInt k with
    | none =>
      simp only [hpi] at h
      exact absurd h (by simp)
    | some i =>
      simp only [hpi] at h
      cases hix : pyIndex probs i with
      | none =>
        simp only [hix] at h
        exact absurd h (by simp)
      | some q =>
        simp only [hix] at h
        rcases List.mem_cons.1 hkv with rfl | hkv
        · exact ⟨i, q, hpi, hix⟩
        · exact ih (dictInsert acc lbl q) dist h kv hkv

theorem probEntries_values (probs : List ℚ) (cml : List (String × String))
    (h : ∀ kv ∈ cml, ∃ i q, pyInt kv.1 = some i ∧ pyIndex probs i = some q) :
    (probEntries probs cml).map (fun kv => kv.2) =
      (classIndices cml).map (fun i => (pyIndex probs i).getD 0) := by
  induction cml with
  | nil => rfl
  | cons kv rest ih =>
    obtain ⟨k, lbl⟩ := kv
    obtain ⟨i, q, hpi, hix⟩ := h (k, lbl) (by simp)
    have ihr := ih (fun kv hkv => h kv (by simp [hkv]))
    simp only [probEntries, classIndices, List.filterMap_cons, hpi, hix] at ihr ⊢
    simpa [hix] using ihr

theorem pyIndex_coe_nat (l : List ℚ) (i : ℕ) (h : i < l.length) :
    pyIndex l (i : Int) = some (l.getD i 0) := by
  have h0 : ¬ ((i : Int) < 0) := by simp
  have hc : (0 : Int) ≤ (i : Int) ∧ ((i : Int).toNat < l.length) := ⟨by simp, by simpa using h⟩
  simp only [pyIndex, if_neg h0, dif_pos hc]
  rw [List.getD_eq_get l 0 (show i < l.length from h)]
  rfl

theorem range_map_getD (l : List ℚ) :
    (List.range l.length).map (fun i => l.getD i 0) = l := by
  induction l with
  | nil => simp
  | cons x xs ih =>
    rw [List.length_cons, List.range_succ_eq_map, List.map_cons, List.map_map]
    have hcomp : ((fun i => (x :: xs).getD i 0) ∘ Nat.succ) = (fun i => xs.getD i 0) := by
      funext i
      simp [List.getD_cons_succ]
    rw [hcomp, ih]
    simp

theorem probEntries_perm_probs (probs : List ℚ) (cml : List (String × String))
    (hall : ∀ kv ∈ cml, ∃ i q, pyInt kv.1 = some i ∧ pyIndex probs i = some q)
    (hidx : List.Perm (classIndices cml)
      ((List.range probs.length).map (fun i : ℕ => (i : Int)))) :
    List.Perm ((probEntries probs cml).map (fun kv => kv.2)) probs := by
  rw [probEntries_values probs cml hall]
  refine (hidx.map (fun i => (pyIndex probs i).getD 0)).trans ?_
  rw [List.map_map]
  have hcongr : (List.range probs.length).map
      ((fun i => (pyIndex probs i).getD 0) ∘ (fun i : ℕ => (i : Int))) =
      (List.range probs.length).map (fun i => probs.getD i 0) := by
    refine List.map_congr_left ?_
    intro i hi
    have hi' : i < probs.length := List.mem_range.1 hi
    simp [Function.comp, pyIndex_coe_nat probs i hi']
  rw [hcongr, range_map_getD]

/-! ### Shape of every result `predict` returns -/

theorem rankResult_success_spec (cm : List (String × String)) (probs : List ℚ)
    (h : (rankResult cm probs).success = true) :
    ∃ c i lbl dist, argmaxFirst probs = some (c, i) ∧
      List.lookup (toString i) cm = some lbl ∧
      buildProbDist probs cm [] = .ok dist ∧
      rankResult cm probs =
        { success := true
          class_name := some lbl
          confidence := c
          probabilities := (pySortedDesc dist).take 5
          all_probabilities := some dist
          error := none } := by
  unfold rankResult at h
  cases ha : argmaxFirst probs with
  | none => simp [ha, mkFailure] at h
  | some ci =>
    obtain ⟨c, i⟩ := ci
    simp only [ha] at h
    cases hl : List.lookup (toString i) cm with
    | none => simp [hl, mkFailure] at h
    | some lbl =>
      simp only [hl] at h
      cases hb : buildProbDist probs cm [] with
      | error e => simp [hb, mkFailure] at h
      | ok dist =>
        refine ⟨c, i, lbl, dist, rfl, hl, rfl, ?_⟩
        unfold rankResult
        simp only [ha, hl, hb]

theorem predict_shape (cm : List (String × String)) (pre : Option (List ℚ)) :
    (∃ e, predict cm pre = mkFailure e ∧ 0 < e.length) ∨ (predict cm pre).success = true := by
  cases pre with
  | none => exact Or.inl ⟨"Failed to preprocess image", rfl, by decide⟩
  | some probs =>
    have hp : predict cm (some probs) = rankResult cm probs := rfl
    rw [hp]
    cases ha : argmaxFirst probs with
    | none =>
      refine Or.inl ⟨"max(): Expected reduction dim 1 to have non-zero size.", ?_, by decide⟩
      unfold rankResult
      simp only [ha]
    | some ci =>
      obtain ⟨c, i⟩ := ci
      cases hl : List.lookup (toString i) cm with
      | none =>
        refine Or.inl ⟨"\x27" ++ toString i ++ "\x27", ?_, ?_⟩
        · unfold rankResult
          simp only [ha, hl]
        · exact length_append_pos_left _ _ (length_append_pos_left _ _ (by decide))
      | some lbl =>
        cases hb : buildProbDist probs cm [] with
        | error e =>
          refine Or.inl ⟨e, ?_, buildProbDist_error_length probs cm [] e hb⟩
          unfold rankResult
          simp only [ha, hl, hb]
        | ok dist =>
          refine Or.inr ?_
          unfold rankResult
          simp only [ha, hl, hb]

/-! ### Lemmas about the spec-side sorts and the class listing -/

theorem insertBy_all {α : Type} (le : α → α → Bool) (x : α) (acc : List α)
    (h : ∀ q ∈ acc, le q x = true) : insertBy le x acc = acc ++ [x] := by
  induction acc with
  | nil => rfl
  | cons q rest ih =>
    have hq : le q x = true := h q (by simp)
    simp only [insertBy, if_pos hq]
    rw [ih (fun q' hq' => h q' (by simp [hq']))]
    simp

theorem sortByFold_of_pairwise {α : Type} (le : α → α → Bool) :
    ∀ (l acc : List α), (acc ++ l).Pairwise (fun a b => le a b = true) →
      l.foldl (fun acc p => insertBy le p acc) acc = acc ++ l := by
  intro l
  induction l with
  | nil =>
    intro acc _
    simp
  | cons x xs ih =>
    intro acc hp
    simp only [List.foldl_cons]
    have hall : ∀ q ∈ acc, le q x = true := by
      intro q hq
      exact (List.pairwise_append.1 hp).2.2 q hq x (by simp)
    rw [insertBy_all le x acc hall]
    have hp' : ((acc ++ [x]) ++ xs).Pairwise (fun a b => le a b = true) := by
      simpa [List.append_assoc] using hp
    rw [ih (acc ++ [x]) hp']
    simp

theorem sortBy_of_pairwise {α : Type} (le : α → α → Bool) (l : List α)
    (h : l.Pairwise (fun a b => le a b = true)) : sortBy le l = l := by
  simpa [sortBy] using sortByFold_of_pairwise le l [] (by simpa using h)

theorem keyedEntries_map_snd (cm : List (String × String))
    (h : ∀ kv ∈ cm, (pyInt kv.1).isSome) :
    (keyedEntries cm).map (fun x => x.2) = cm.map (fun kv => kv.2) := by
  induction cm with
  | nil => rfl
  | cons kv rest ih =>
    obtain ⟨k, lbl⟩ := kv
    have hk : (pyInt k).isSome := h (k, lbl) (by simp)
    obtain ⟨i, hi⟩ := Option.isSome_iff_exists.1 hk
    have ihr := ih (fun kv hkv => h kv (by simp [hkv]))
    simp only [keyedEntries, List.filterMap_cons, hi] at ihr ⊢
    simp only [Option.map_some']
    simpa using ihr

/-! ### Lemmas about the lazy-initialization interleavings -/

theorem countP_set_eq (p : ℕ → Bool) :
    ∀ (l : List ℕ) (t : ℕ) (a b : ℕ), l.get? t = some a →
      (l.set t b).countP p + (if p a then 1 else 0) =
        l.countP p + (if p b then 1 else 0) := by
  intro l
  induction l with
  | nil =>
    intro t a b h
    simp at h
  | cons x xs ih =>
    intro t a b h
    cases t with
    | zero =>
      simp only [List.get?] at h
      have hx : x = a := by simpa using h
      subst hx
      simp only [List.set, List.countP_cons]
      by_cases hb : p b <;> by_cases hxx : p x <;> simp [hb, hxx]
    | succ t' =>
      simp only [List.get?] at h
      have := ih t' a b h
      simp only [List.set, List.countP_cons]
      by_cases hx : p x <;> simp [hx] <;> omega

/-- Invariant of the unguarded lazy-initialization protocol: the thread list
keeps its length, every completed load is matched by a finished thread, and
while no load has happened the predictor is unset and no thread has
returned. -/
def GPInv (n : ℕ) (s : GPState) : Prop :=
  s.pcs.length = n ∧
    s.loadCount ≤ s.pcs.countP (fun pc => pc == 2) ∧
    (s.predictor = none → s.loadCount = 0 ∧ ∀ pc ∈ s.pcs, pc ≠ 2) ∧
    (s.predictor = none ∨ 1 ≤ s.loadCount)

theorem gpStep_inv (n : ℕ) (s : GPState) (t : ℕ) (h : GPInv n s) : GPInv n (gpStep s t) := by
  obtain ⟨hlen, hcount, hnone, hdis⟩ := h
  unfold gpStep
  cases hg : s.pcs.get? t with
  | none => exact ⟨hlen, hcount, hnone, hdis⟩
  | some pc =>
    have hcnt2 := countP_set_eq (fun pc => pc == 2) s.pcs t pc 2 hg
    match pc with
    | 0 =>
      by_cases hps : s.predictor.isSome
      · simp only [if_pos hps]
        refine ⟨by simpa using hlen, ?_, ?_, hdis⟩
        · simp only [beq_iff_eq] at hcnt2 ⊢
          simp at hcnt2
          omega
        · intro hn
          rw [hn] at hps
          simp at hps
      · simp only [if_neg hps]
        have hcnt1 := countP_set_eq (fun pc => pc == 2) s.pcs t 0 1 hg
        refine ⟨by simpa using hlen, ?_, ?_, hdis⟩
        · show s.loadCount ≤ (s.pcs.set t 1).countP (fun pc => pc == 2)
          simp at hcnt1
          omega
        · intro hn
          obtain ⟨hl0, hno2⟩ := hnone hn
          refine ⟨hl0, ?_⟩
          intro pc' hpc'
          rcases List.mem_or_eq_of_mem_set hpc' with hpc' | rfl
          · exact hno2 pc' hpc'
          · omega
    | 1 =>
      show GPInv n { predictor := some (), loadCount := s.loadCount + 1, pcs := s.pcs.set t 2 }
      have hcnt12 := countP_set_eq (fun pc => pc == 2) s.pcs t 1 2 hg
      refine ⟨by simpa using hlen, ?_, ?_, Or.inr (by show 1 ≤ s.loadCount + 1; omega)⟩
      · show s.loadCount + 1 ≤ (s.pcs.set t 2).countP (fun pc => pc == 2)
        simp at hcnt12
        omega
      · intro hn
        simp at hn
    | (k + 2) =>
      exact ⟨hlen, hcount, hnone, hdis⟩

theorem gpRun_inv (n : ℕ) (sched : List ℕ) (s : GPState) (h : GPInv n s) :
    GPInv n (gpRun s sched) := by
  induction sched generalizing s with
  | nil => exact h
  | cons t ts ih => exact ih (gpStep s t) (gpStep_inv n s t h)

theorem gpInit_inv (n : ℕ) : GPInv n (gpInit n) := by
  refine ⟨by simp [gpInit], by simp [gpInit], ?_, Or.inl rfl⟩
  intro _
  refine ⟨rfl, ?_⟩
  intro pc hpc
  have := List.eq_of_mem_replicate (by simpa [gpInit] using hpc)
  omega

/-! ### The claims -/

/-- Claim C1: for every prediction that succeeds, the returned class name is
the label the class map gives for the index achieving the maximum
probability, and the confidence equals that maximum; among tied maxima the
lowest index is chosen (`torch.max` returns the first maximum). -/
theorem predict_class_name_is_first_argmax (cm : List (String × String)) (probs : List ℚ)
    (h : (predict cm (some probs)).success = true) :
    ∃ c i lbl, firstArgmax probs c i ∧
      List.lookup (toString i) cm = some lbl ∧
      (predict cm (some probs)).confidence = c ∧
      (predict cm (some probs)).class_name = some lbl := by
  have h' : (rankResult cm probs).success = true := h
  obtain ⟨c, i, lbl, dist, ha, hl, hb, hr⟩ := rankResult_success_spec cm probs h'
  refine ⟨c, i, lbl, argmaxFirst_spec probs c i ha, hl, ?_, ?_⟩
  · show (rankResult cm probs).confidence = c
    rw [hr]
  · show (rankResult cm probs).class_name = some lbl
    rw [hr]

/-- Witness for C1 at a concrete successful prediction. -/
theorem predict_class_name_is_first_argmax_witness :
    ∃ c i lbl, firstArgmax [mkRat 1 4, mkRat 3 4] c i ∧
      List.lookup (toString i) [("0", "resistor"), ("1", "capacitor")] = some lbl ∧
      (predict [("0", "resistor"), ("1", "capacitor")]
        (some [mkRat 1 4, mkRat 3 4])).confidence = c ∧
      (predict [("0", "resistor"), ("1", "capacitor")]
        (some [mkRat 1 4, mkRat 3 4])).class_name = some lbl :=
  predict_class_name_is_first_argmax [("0", "resistor"), ("1", "capacitor")]
    [mkRat 1 4, mkRat 3 4] (by decide)

/-- Claim C2 (counterexample): with the class map stored in the order
`{"1": "b", "0": "a"}` and tied probabilities, the code's top-K view orders
the tie by storage order (`b` first), not by ascending class index
(`a` first) as the claim requires. -/
theorem topk_tie_order_counterexample :
    (predict [("1", "b"), ("0", "a")] (some [mkRat 1 2, mkRat 1 2])).probabilities ≠
      claimTopK [("1", "b"), ("0", "a")] [mkRat 1 2, mkRat 1 2] := by
  decide

/-- Claim C2 (amended): on success the top-K view is the 5-entry prefix of
`all_probabilities` stably sorted by probability descending — ties keep the
order of `prob_dist`, which (for pairwise-distinct labels) is exactly the
per-class entry list in the class map's storage order, not ascending class
index — and, when the labels are pairwise distinct, it has length exactly
`min 5 N`. -/
theorem topk_sorted_stable_by_storage_order (cm : List (String × String)) (probs : List ℚ)
    (h : (predict cm (some probs)).success = true) :
    ∃ dist, (predict cm (some probs)).all_probabilities = some dist ∧
      (predict cm (some probs)).probabilities = (pySortedDesc dist).take 5 ∧
      List.Perm (pySortedDesc dist) dist ∧
      (pySortedDesc dist).Pairwise (fun a b => b.2 ≤ a.2) ∧
      (∀ v : ℚ, (pySortedDesc dist).filter (fun x => decide (x.2 = v)) =
        dist.filter (fun x => decide (x.2 = v))) ∧
      ((cm.map (fun kv => kv.2)).Nodup → dist = probEntries probs cm) ∧
      ((cm.map (fun kv => kv.2)).Nodup →
        (predict cm (some probs)).probabilities.length = min 5 cm.length) := by
  have h' : (rankResult cm probs).success = true := h
  obtain ⟨c, i, lbl, dist, ha, hl, hb, hr⟩ := rankResult_success_spec cm probs h'
  refine ⟨dist, ?_, ?_, pySortedDesc_perm dist, pySortedDesc_sorted dist,
    fun v => pySortedDesc_filter dist v, ?_, ?_⟩
  · show (rankResult cm probs).all_probabilities = some dist
    rw [hr]
  · show (rankResult cm probs).probabilities = (pySortedDesc dist).take 5
    rw [hr]
  · intro hnd
    simpa using buildProbDist_ok_entries probs cm [] dist hb (by simpa using hnd)
  · intro hnd
    have hlendist : dist.length = cm.length := by
      have := buildProbDist_ok_length probs cm [] dist hb (by simpa using hnd)
      simpa using this
    show (rankResult cm probs).probabilities.length = min 5 cm.length
    rw [hr]
    simp [List.length_take, (pySortedDesc_perm dist).length_eq, hlendist]

/-- Witness for the amended C2 at a concrete successful prediction. -/
theorem topk_sorted_stable_by_storage_order_witness :
    ∃ dist, (predict [("0", "a"), ("1", "b")]
        (some [mkRat 1 4, mkRat 3 4])).all_probabilities = some dist ∧
      (predict [("0", "a"), ("1", "b")]
        (some [mkRat 1 4, mkRat 3 4])).probabilities = (pySortedDesc dist).take 5 ∧
      List.Perm (pySortedDesc dist) dist ∧
      (pySortedDesc dist).Pairwise (fun a b => b.2 ≤ a.2) ∧
      (∀ v : ℚ, (pySortedDesc dist).filter (fun x => decide (x.2 = v)) =
        dist.filter (fun x => decide (x.2 = v))) ∧
      ((([("0", "a"), ("1", "b")] : List (String × String)).map (fun kv => kv.2)).Nodup →
        dist = probEntries [mkRat 1 4, mkRat 3 4] [("0", "a"), ("1", "b")]) ∧
      ((([("0", "a"), ("1", "b")] : List (String × String)).map (fun kv => kv.2)).Nodup →
        (predict [("0", "a"), ("1", "b")]
          (some [mkRat 1 4, mkRat 3 4])).probabilities.length =
          min 5 ([("0", "a"), ("1", "b")] : List (String × String)).length) :=
  topk_sorted_stable_by_storage_order [("0", "a"), ("1", "b")]
    [mkRat 1 4, mkRat 3 4] (by decide)

/-- The ℝ-side fact behind claim C3: softmax turns any nonempty list of
logits into a probability distribution — every entry lies in `[0, 1]` and
the entries sum to exactly 1, hence to 1 within any tolerance. The amended
claim C3 (`all_probabilities_distribution`) carries these row properties to
the `all_probabilities` field of `predict`. -/
theorem softmax_is_distribution (l : List ℝ) (h : l ≠ []) :
    (∀ p ∈ softmax l, 0 ≤ p ∧ p ≤ 1) ∧ (softmax l).sum = 1 ∧
      |(softmax l).sum - 1| ≤ 1 / 10000 := by
  set S : ℝ := (l.map Real.exp).sum with hS
  have hnonneg : ∀ a ∈ l.map Real.exp, 0 ≤ a := by
    intro a ha
    obtain ⟨y, _, rfl⟩ := List.mem_map.1 ha
    exact (Real.exp_pos y).le
  have hpos : 0 < S := by
    refine List.sum_pos (l.map Real.exp) ?_ ?_
    · intro a ha
      obtain ⟨y, _, rfl⟩ := List.mem_map.1 ha
      exact Real.exp_pos y
    · intro hnil
      exact h (List.map_eq_nil.1 hnil)
  have hsum : (softmax l).sum = 1 := by
    unfold softmax
    rw [← hS]
    simp only [div_eq_mul_inv]
    rw [List.sum_map_mul_right, ← hS, mul_inv_cancel₀ (ne_of_gt hpos)]
  refine ⟨?_, hsum, by rw [hsum]; norm_num⟩
  intro p hp
  obtain ⟨x, hx, rfl⟩ := List.mem_map.1 hp
  rw [← hS]
  constructor
  · exact div_nonneg (Real.exp_pos x).le hpos.le
  · rw [div_le_one hpos]
    exact List.single_le_sum hnonneg _ (List.mem_map_of_mem Real.exp hx)

/-- Instantiation of `softmax_is_distribution` at the one-logit list `[0]`. -/
theorem softmax_is_distribution_witness :
    (∀ p ∈ softmax [(0 : ℝ)], 0 ≤ p ∧ p ≤ 1) ∧ (softmax [(0 : ℝ)]).sum = 1 ∧
      |(softmax [(0 : ℝ)]).sum - 1| ≤ 1 / 10000 :=
  softmax_is_distribution [(0 : ℝ)] (by simp)

/-- Claim C4 (counterexample): the artifact `{"0": "resistor",
"2": "capacitor"}` has non-contiguous indices, yet initialization succeeds —
`_load_class_map` performs no contiguity validation and the predictor is
constructed. -/
theorem noncontiguous_class_map_loads_ok :
    ¬ contiguousKeys [("0", "resistor"), ("2", "capacitor")] ∧
      initializePredictor true (.parsed [("0", "resistor"), ("2", "capacitor")])
          (fun _ => true) =
        .ok { class_map := [("0", "resistor"), ("2", "capacitor")] } := by
  constructor
  · decide
  · rfl

/-- Claim C4 (amended): loading a class-map artifact never inspects its
indices: for every parsed artifact, contiguous or not, `_load_class_map`
returns it unchanged, and initialization succeeds whenever the weights file
exists and the weights match `len(class_map)` — the predictor becomes ready
even for non-contiguous maps. -/
theorem load_class_map_no_validation (entries : List (String × String))
    (wc : ℕ → Bool) (hw : wc entries.length = true) :
    load_class_map_step (.parsed entries) = .ok entries ∧
    initializePredictor true (.parsed entries) wc = .ok { class_map := entries } := by
  refine ⟨rfl, ?_⟩
  have hm : load_model_step true (.parsed entries) wc = .ok entries.length := by
    unfold load_model_step
    simp [hw]
  unfold initializePredictor
  rw [hm]
  rfl

/-- Witness for the amended C4 at a concrete one-entry artifact. -/
theorem load_class_map_no_validation_witness :
    load_class_map_step (.parsed [("5", "diode")]) = .ok [("5", "diode")] ∧
    initializePredictor true (.parsed [("5", "diode")]) (fun _ => true) =
      .ok { class_map := [("5", "diode")] } :=
  load_class_map_no_validation [("5", "diode")] (fun _ => true) rfl

/-- Claim C5: `predict` always returns a structured result; whenever the
result is a failure — in particular for every input on which preprocessing
returns `None` (nonexistent path, zero-byte file, undecodable payload) — it
carries `success = false` and a non-empty error string. -/
theorem predict_failure_error_nonempty (cm : List (String × String)) (pre : Option (List ℚ)) :
    ((predict cm pre).success = false →
      ∃ e, (predict cm pre).error = some e ∧ 0 < e.length) ∧
    ((predict cm none).success = false ∧
      (predict cm none).error = some "Failed to preprocess image") := by
  refine ⟨?_, rfl, rfl⟩
  intro h
  rcases predict_shape cm pre with ⟨e, he, hlen⟩ | hs
  · refine ⟨e, ?_, hlen⟩
    rw [he]
    rfl
  · rw [hs] at h
    exact absurd h (by simp)

/-- Witness for C5 at a failing prediction (empty class map, so the label
lookup raises `KeyError`). -/
theorem predict_failure_error_nonempty_witness :
    ∃ e, (predict [] (some [mkRat 1 2])).error = some e ∧ 0 < e.length :=
  (predict_failure_error_nonempty [] (some [mkRat 1 2])).1 (by decide)

/-- Claim C6 (counterexample): the failure dictionary built by `predict` has
no `all_probabilities` key at all, so a failed prediction over a nonempty
class map does not satisfy the claimed shape (an `all_probabilities` mapping
with one entry for every class). -/
theorem failure_result_lacks_all_probabilities :
    ¬ claimC6Shape [("0", "resistor")] (predict [("0", "resistor")] none) := by
  intro hc
  obtain ⟨_, d, hd, _⟩ := hc
  simp [predict, mkFailure] at hd

/-- Claim C6 (amended): every result has `class_name` a string or null and,
when the probability row lies in `[0, 1]`, a confidence in `[0, 1]`; failure
results carry null fields, empty `probabilities`, a non-empty error, and no
`all_probabilities` key; success results carry no error key and an
`all_probabilities` mapping with an entry for every class of the class map. -/
theorem predict_result_shape (cm : List (String × String)) (pre : Option (List ℚ))
    (hprobs : ∀ p ∈ pre.getD [], 0 ≤ p ∧ p ≤ 1) :
    (0 ≤ (predict cm pre).confidence ∧ (predict cm pre).confidence ≤ 1) ∧
    ((predict cm pre).success = false →
      (predict cm pre).class_name = none ∧ (predict cm pre).confidence = 0 ∧
      (predict cm pre).all_probabilities = none ∧ (predict cm pre).probabilities = [] ∧
      ∃ e, (predict cm pre).error = some e ∧ 0 < e.length) ∧
    ((predict cm pre).success = true →
      (predict cm pre).error = none ∧
      ∃ dist, (predict cm pre).all_probabilities = some dist ∧
        ∀ kv ∈ cm, ∃ q, (kv.2, q) ∈ dist) := by
  rcases predict_shape cm pre with ⟨e, he, hlen⟩ | hs
  · refine ⟨?_, ?_, ?_⟩
    · rw [he]
      exact ⟨le_refl 0, by norm_num [mkFailure]⟩
    · intro _
      rw [he]
      exact ⟨rfl, rfl, rfl, rfl, e, rfl, hlen⟩
    · intro hst
      rw [he] at hst
      exact absurd hst (by simp [mkFailure])
  · cases pre with
    | none => exact absurd hs (by simp [predict, mkFailure])
    | some probs =>
      have h' : (rankResult cm probs).success = true := hs
      obtain ⟨c, i, lbl, dist, ha, hl, hb, hr⟩ := rankResult_success_spec cm probs h'
      have hcm : c ∈ probs := by
        obtain ⟨hget, _, _⟩ := argmaxFirst_spec probs c i ha
        exact List.get?_mem hget
      have hcb := hprobs c hcm
      refine ⟨?_, ?_, ?_⟩
      · constructor
        · show 0 ≤ (rankResult cm probs).confidence
          rw [hr]
          exact hcb.1
        · show (rankResult cm probs).confidence ≤ 1
          rw [hr]
          exact hcb.2
      · intro hf
        have : (rankResult cm probs).success = false := hf
        rw [h'] at this
        exact absurd this (by simp)
      · intro _
        refine ⟨?_, dist, ?_, ?_⟩
        · show (rankResult cm probs).error = none
          rw [hr]
        · show (rankResult cm probs).all_probabilities = some dist
          rw [hr]
        · exact (buildProbDist_ok_covers probs cm [] dist hb).2
/-- Witness for the amended C6 at a concrete successful prediction. -/
theorem predict_result_shape_witness :
    (0 ≤ (predict [("0", "led")] (some [mkRat 1 1])).confidence ∧
      (predict [("0", "led")] (some [mkRat 1 1])).confidence ≤ 1) ∧
    ((predict [("0", "led")] (some [mkRat 1 1])).success = false →
      (predict [("0", "led")] (some [mkRat 1 1])).class_name = none ∧
      (predict [("0", "led")] (some [mkRat 1 1])).confidence = 0 ∧
      (predict [("0", "led")] (some [mkRat 1 1])).all_probabilities = none ∧
      (predict [("0", "led")] (some [mkRat 1 1])).probabilities = [] ∧
      ∃ e, (predict [("0", "led")] (some [mkRat 1 1])).error = some e ∧ 0 < e.length) ∧
    ((predict [("0", "led")] (some [mkRat 1 1])).success = true →
      (predict [("0", "led")] (some [mkRat 1 1])).error = none ∧
      ∃ dist, (predict [("0", "led")] (some [mkRat 1 1])).all_probabilities = some dist ∧
        ∀ kv ∈ ([("0", "led")] : List (String × String)), ∃ q, (kv.2, q) ∈ dist) :=
  predict_result_shape [("0", "led")] (some [mkRat 1 1]) (by decide)

/-- Claim C7 (counterexample): with the class map stored in the order
`{"1": "b", "0": "a"}` (contiguous indices, out-of-order storage),
`get_class_info` lists the labels in storage order `["b", "a"]`, not in
ascending-index order `["a", "b"]` as the claim requires. -/
theorem get_class_info_storage_order_counterexample :
    (get_class_info [("1", "b"), ("0", "a")]).classes ≠
      labelsByAscIndex [("1", "b"), ("0", "a")] := by
  decide

/-- Claim C7 (amended): `get_class_info` lists the labels in the storage
order of the class-map file; only when the stored keys are all integers and
already appear in ascending index order does this coincide with the
ascending-index listing. -/
theorem get_class_info_classes_order (cm : List (String × String))
    (hkeys : ∀ kv ∈ cm, (pyInt kv.1).isSome)
    (hsorted : (keyedEntries cm).Pairwise (fun a b => ascKeyLe a b = true)) :
    (get_class_info cm).classes = cm.map (fun kv => kv.2) ∧
    (get_class_info cm).classes = labelsByAscIndex cm := by
  refine ⟨rfl, ?_⟩
  unfold labelsByAscIndex
  rw [sortBy_of_pairwise ascKeyLe (keyedEntries cm) hsorted,
    keyedEntries_map_snd cm hkeys]
  rfl

/-- Witness for the amended C7 at a class map stored in ascending order. -/
theorem get_class_info_classes_order_witness :
    (get_class_info [("0", "a"), ("1", "b")]).classes =
      ([("0", "a"), ("1", "b")] : List (String × String)).map (fun kv => kv.2) ∧
    (get_class_info [("0", "a"), ("1", "b")]).classes =
      labelsByAscIndex [("0", "a"), ("1", "b")] :=
  get_class_info_classes_order [("0", "a"), ("1", "b")] (by decide) (by decide)

/-- Claim C8: after `model.eval()` the loaded network is in inference mode,
so the forward pass never consults the dropout randomness — two forward
passes on the same input with arbitrary (different) dropout masks produce
identical outputs, and hence two `predict` calls on identical inputs see
identical probability rows. -/
theorem modelForward_eval_mask_independent (backbone : List ℚ → List ℚ)
    (head : HeadWeights) (mask₁ mask₂ : ℕ → Bool) (x : List ℚ) :
    modelForward (loadModelEval backbone head) mask₁ x =
      modelForward (loadModelEval backbone head) mask₂ x := rfl

/-- Claim C9 (counterexample): two threads interleaving the unguarded
check-then-load of `get_predictor` (both observe `predictor is None`, then
both run `create_predictor`) load the model twice — the claimed mutual
exclusion with exactly one load does not hold. -/
theorem unguarded_init_double_load :
    ¬ ((gpRun (gpInit 2) [0, 1, 0, 1]).loadCount ≤ 1) := by
  decide

/-- Claim C9 (amended): `get_predictor` takes no lock, so concurrent first
calls may each run `create_predictor` — up to one load per thread, so `N`
threads perform between 1 and `N` loads — but every completed schedule still
ends with the shared predictor reference set and at least one load
performed. -/
theorem unguarded_init_bounds (n : ℕ) (sched : List ℕ) :
    (gpRun (gpInit n) sched).loadCount ≤ n ∧
    ((∀ pc ∈ (gpRun (gpInit n) sched).pcs, pc = 2) → 1 ≤ n →
      (gpRun (gpInit n) sched).predictor = some () ∧
        1 ≤ (gpRun (gpInit n) sched).loadCount) := by
  obtain ⟨hlen, hcount, hnone, hdis⟩ := gpRun_inv n sched (gpInit n) (gpInit_inv n)
  constructor
  · calc (gpRun (gpInit n) sched).loadCount
        ≤ (gpRun (gpInit n) sched).pcs.countP (fun pc => pc == 2) := hcount
      _ ≤ (gpRun (gpInit n) sched).pcs.length := List.countP_le_length _
      _ = n := hlen
  · intro hall hn
    cases hp : (gpRun (gpInit n) sched).predictor with
    | none =>
      obtain ⟨_, hno2⟩ := hnone hp
      have hne : (gpRun (gpInit n) sched).pcs ≠ [] := by
        intro hnil
        rw [hnil] at hlen
        simp at hlen
        omega
      obtain ⟨pc, hpc⟩ := List.exists_mem_of_ne_nil _ hne
      exact absurd (hall pc hpc) (hno2 pc hpc)
    | some u =>
      cases u
      refine ⟨rfl, ?_⟩
      rcases hdis with hd | hd
      · rw [hp] at hd
        exact absurd hd (by simp)
      · exact hd

/-- Witness for the amended C9 at the concrete double-load schedule. -/
theorem unguarded_init_bounds_witness :
    (gpRun (gpInit 2) [0, 1, 0, 1]).loadCount ≤ 2 ∧
    ((∀ pc ∈ (gpRun (gpInit 2) [0, 1, 0, 1]).pcs, pc = 2) → 1 ≤ 2 →
      (gpRun (gpInit 2) [0, 1, 0, 1]).predictor = some () ∧
        1 ≤ (gpRun (gpInit 2) [0, 1, 0, 1]).loadCount) :=
  unguarded_init_bounds 2 [0, 1, 0, 1]

/-- Claim C10: once initialization has succeeded, `get_class_info` returns a
consistent view of the cached class map: `num_classes` equals the size of
`class_mapping`, `classes` has exactly `num_classes` elements, and `classes`
is exactly the value sequence of `class_mapping` in its iteration order. -/
theorem get_class_info_consistent (modelExists : Bool) (cmFile : FileState)
    (wc : ℕ → Bool) (p : Predictor)
    (_h : initializePredictor modelExists cmFile wc = .ok p) :
    (get_class_info p.class_map).num_classes =
      (get_class_info p.class_map).class_mapping.length ∧
    (get_class_info p.class_map).classes.length = (get_class_info p.class_map).num_classes ∧
    (get_class_info p.class_map).classes =
      (get_class_info p.class_map).class_mapping.map (fun kv => kv.2) := by
  refine ⟨rfl, ?_, rfl⟩
  simp [get_class_info]

/-- Witness for C10 at a concrete successful initialization. -/
theorem get_class_info_consistent_witness :
    (get_class_info (Predictor.mk [("0", "relay")]).class_map).num_classes =
      (get_class_info (Predictor.mk [("0", "relay")]).class_map).class_mapping.length ∧
    (get_class_info (Predictor.mk [("0", "relay")]).class_map).classes.length =
      (get_class_info (Predictor.mk [("0", "relay")]).class_map).num_classes ∧
    (get_class_info (Predictor.mk [("0", "relay")]).class_map).classes =
      (get_class_info (Predictor.mk [("0", "relay")]).class_map).class_mapping.map
        (fun kv => kv.2) :=
  get_class_info_consistent true (.parsed [("0", "relay")]) (fun _ => true)
    (Predictor.mk [("0", "relay")]) rfl

/-- Claim C3 (counterexample): the loader validates nothing, so the
duplicate-label class map `{"0": "x", "1": "x"}` loads and predicts
successfully on the softmax row `[1/2, 1/2]` (which sums to 1), yet
`prob_dist` collapses the two classes into one entry and the values of
`all_probabilities` sum to `1/2` — not within 1e-4 of 1. -/
theorem duplicate_label_sum_counterexample :
    (predict [("0", "x"), ("1", "x")] (some [mkRat 1 2, mkRat 1 2])).success = true ∧
    ([mkRat 1 2, mkRat 1 2] : List ℚ).sum = 1 ∧
    (predict [("0", "x"), ("1", "x")] (some [mkRat 1 2, mkRat 1 2])).all_probabilities =
      some [("x", mkRat 1 2)] ∧
    ¬ |((([("x", mkRat 1 2)] : List (String × ℚ)).map (fun kv => kv.2)).sum) - 1| ≤
        (1 : ℚ) / 10000 := by
  refine ⟨by decide, ?_, by decide, ?_⟩
  · simp [List.sum_cons, List.sum_nil]
    norm_num [Rat.mkRat_eq_div]
  · simp only [List.map_cons, List.map_nil, List.sum_cons, List.sum_nil, add_zero]
    rw [Rat.mkRat_eq_div, abs_le]
    push_cast
    norm_num

/-- Claim C3 (amended): for every successful prediction over a class map
with pairwise-distinct labels whose keys enumerate exactly the indices
`0..N-1` of the probability row, the values of `all_probabilities` are a
permutation of the softmax row — so each lies in `[0, 1]` whenever the row
does (which `softmax_is_distribution` guarantees of a softmax row) and they
sum to the row's sum, which is 1 for a softmax row, hence within 1e-4.
With duplicate labels, entries collapse and the sum falls short. -/
theorem all_probabilities_distribution (cm : List (String × String)) (probs : List ℚ)
    (h : (predict cm (some probs)).success = true)
    (hlbl : (cm.map (fun kv => kv.2)).Nodup)
    (hidx : List.Perm (classIndices cm)
      ((List.range probs.length).map (fun i : ℕ => (i : Int)))) :
    ∃ dist, (predict cm (some probs)).all_probabilities = some dist ∧
      List.Perm (dist.map (fun kv => kv.2)) probs ∧
      (dist.map (fun kv => kv.2)).sum = probs.sum ∧
      ((∀ p ∈ probs, 0 ≤ p ∧ p ≤ 1) → ∀ kv ∈ dist, 0 ≤ kv.2 ∧ kv.2 ≤ 1) ∧
      (probs.sum = 1 → |(dist.map (fun kv => kv.2)).sum - 1| ≤ (1 : ℚ) / 10000) := by
  have h' : (rankResult cm probs).success = true := h
  obtain ⟨c, i, lbl, dist, ha, hl, hb, hr⟩ := rankResult_success_spec cm probs h'
  have hent : dist = probEntries probs cm := by
    simpa using buildProbDist_ok_entries probs cm [] dist hb (by simpa using hlbl)
  have hall := buildProbDist_ok_all_parse probs cm [] dist hb
  have hperm : List.Perm (dist.map (fun kv => kv.2)) probs := by
    rw [hent]
    exact probEntries_perm_probs probs cm hall hidx
  refine ⟨dist, ?_, hperm, hperm.sum_eq, ?_, ?_⟩
  · show (rankResult cm probs).all_probabilities = some dist
    rw [hr]
  · intro hbound kv hkv
    exact hbound kv.2 (hperm.mem_iff.1 (List.mem_map_of_mem (fun kv => kv.2) hkv))
  · intro hsum
    rw [hperm.sum_eq, hsum]
    norm_num

/-- Witness for the amended C3 at a concrete successful prediction whose
row sums to 1. -/
theorem all_probabilities_distribution_witness :
    ∃ dist, (predict [("0", "r"), ("1", "c")]
        (some [mkRat 1 3, mkRat 2 3])).all_probabilities = some dist ∧
      List.Perm (dist.map (fun kv => kv.2)) [mkRat 1 3, mkRat 2 3] ∧
      (dist.map (fun kv => kv.2)).sum = ([mkRat 1 3, mkRat 2 3] : List ℚ).sum ∧
      ((∀ p ∈ ([mkRat 1 3, mkRat 2 3] : List ℚ), 0 ≤ p ∧ p ≤ 1) →
        ∀ kv ∈ dist, 0 ≤ kv.2 ∧ kv.2 ≤ 1) ∧
      (([mkRat 1 3, mkRat 2 3] : List ℚ).sum = 1 →
        |(dist.map (fun kv => kv.2)).sum - 1| ≤ (1 : ℚ) / 10000) :=
  all_probabilities_distribution [("0", "r"), ("1", "c")] [mkRat 1 3, mkRat 2 3]
    (by decide) (by decide) (by decide)
